import Mathlib

/-!
Verification of the matrix-free iterative linear-solver suite described by the
repository's specification and exercised by `src/warp/tests/test_linear_solvers.py`.

The solver module itself (`warp.optim.linear`: `cg`, `bicgstab`, `gmres`,
`preconditioner`) is not part of the given sources; only its test callers are.
The solvers and the preconditioner builder are therefore modelled from the
specification's own algorithm descriptions (sections 4.2-4.4, 4.6 and 6), over
exact rational arithmetic.  The test-suite
helpers (`_least_square_system`, `_make_nonsymmetric_system`,
`_make_indefinite_system`, and the keyword arguments of the calls inside
`_check_linear_solve` / `test_cg` / `test_bicgstab` / `test_gmres`) are embedded
from the source file directly.

Modelling conventions, used throughout:
* scalars are `ℚ` (exact arithmetic stands in for IEEE floats);
* Euclidean norms are carried squared (`normSq`), so every comparison
  `‖v‖ ≤ t` of the code appears here as `normSq v ≤ t²`; the solvers therefore
  take `tolSq`/`floorSq` (the squares of the relative tolerance and of the
  absolute-tolerance floor) and report `errSq`/`atolSq`;
* vectors of length `n` are `Fin n → ℚ`, matrices are `Matrix (Fin n) (Fin n) ℚ`.
-/

namespace Warp

open Matrix

/-- Squared Euclidean norm of a vector; the model carries `‖v‖²` instead of `‖v‖`
so that every quantity stays rational. -/
def normSq {n : ℕ} (v : Fin n → ℚ) : ℚ :=
  dotProduct v v

/-- Positive definiteness of a rational square matrix, stated directly through
the quadratic form. -/
def PosDefQ {n : ℕ} (A : Matrix (Fin n) (Fin n) ℚ) : Prop :=
  ∀ v : Fin n → ℚ, v ≠ 0 → 0 < dotProduct v (A.mulVec v)

/-- Modelled from the spec (section 4.2): "ε a small numeric-kind-dependent
constant" guarding the diagonal inversion of the `"diag"` preconditioner.  The
source module holding the actual constant is absent, so one representative
positive value is fixed here. -/
def epsDiag : ℚ := 1 / 100000000

/-- Modelled from the spec (section 7): the error taxonomy of the preconditioner
builder; only `UnsupportedPreconditionerError` can arise at build time. -/
inductive PrecondError
  | unsupportedPreconditionerError
deriving DecidableEq

/-- Modelled from the spec (section 4.2, `"diag"` kind): extract the diagonal of
`A`, invert each entry, and map entries with `|diag_i| < ε` to `0` instead of
inverting them. -/
def diagPrecondMat {n : ℕ} (A : Matrix (Fin n) (Fin n) ℚ) : Matrix (Fin n) (Fin n) ℚ :=
  Matrix.diagonal fun i => if |A i i| < epsDiag then 0 else (A i i)⁻¹

/-- Modelled from the spec (section 4.2): `preconditioner(A, kind) -> M`.
Recognized kinds are `"diag"` and `"identity"`; every other kind string fails at
build time with `UnsupportedPreconditionerError`. -/
def preconditioner {n : ℕ} (A : Matrix (Fin n) (Fin n) ℚ) (kind : String) :
    Except PrecondError (Matrix (Fin n) (Fin n) ℚ) :=
  if kind = "diag" then Except.ok (diagPrecondMat A)
  else if kind = "identity" then Except.ok 1
  else Except.error PrecondError.unsupportedPreconditionerError

/-- Modelled from the spec (sections 3 and 7): the
`(iterations_used, final_residual_norm, tolerance_used)` result of a solve,
with the BiCGSTAB breakdown flag of section 7; norms are carried squared. -/
structure ConvergenceResult where
  niter : ℕ
  errSq : ℚ
  atolSq : ℚ
  breakdown : Bool
deriving DecidableEq

/-- The result viewed as the positional triple the callers destructure:
`niter, err, atol = func(...)`. -/
def ConvergenceResult.toTriple (c : ConvergenceResult) : ℕ × ℚ × ℚ :=
  (c.niter, c.errSq, c.atolSq)

/-- A solve returns the solution vector (written back into `x`) together with a
`ConvergenceResult`. -/
structure SolveAnswer (n : ℕ) where
  x : Fin n → ℚ
  res : ConvergenceResult
deriving DecidableEq

/-- Modelled from the spec (section 4.3): the termination threshold
`atol = max(rtol·‖b‖, abs_tol_floor)`, carried squared. -/
def atolSqOf {n : ℕ} (b : Fin n → ℚ) (tolSq floorSq : ℚ) : ℚ :=
  max (tolSq * normSq b) floorSq

/-- State of a CG solve: iterate `x`, running residual `r`, search direction `p`
and the scalar `ρ_old` of the spec's section 4.3. -/
structure CGState (n : ℕ) where
  x : Fin n → ℚ
  r : Fin n → ℚ
  p : Fin n → ℚ
  rhoOld : ℚ
deriving DecidableEq

/-- Modelled from the spec (section 4.3), one CG iteration:
`z = M·r`; `ρ_new = rᵗ·z`; `β = ρ_new/ρ_old`; `p = z + β·p`; `q = A·p`;
`α = ρ_new/(pᵗ·q)`; `x += α·p`; `r -= α·q`; `ρ_old = ρ_new`.  The spec's
first-iteration special case `p = z` is realized by starting from `p = 0`,
`ρ_old = 1`, for which `z + β·p = z`. -/
def cgStep {n : ℕ} (A Mm : Matrix (Fin n) (Fin n) ℚ) (s : CGState n) : CGState n :=
  let z := Mm.mulVec s.r
  let rhoNew := dotProduct s.r z
  let beta := rhoNew / s.rhoOld
  let p := z + beta • s.p
  let q := A.mulVec p
  let alpha := rhoNew / dotProduct p q
  { x := s.x + alpha • p
    r := s.r - alpha • q
    p := p
    rhoOld := rhoNew }

/-- Modelled from the spec (section 4.3, warm start): the residual is
initialized from the supplied `x` as `r = b - A·x`. -/
def cgInit {n : ℕ} (A : Matrix (Fin n) (Fin n) ℚ) (b x0 : Fin n → ℚ) : CGState n :=
  { x := x0, r := b - A.mulVec x0, p := 0, rhoOld := 1 }

/-- The state reached after `k` CG iterations. -/
def cgIter {n : ℕ} (A Mm : Matrix (Fin n) (Fin n) ℚ) (b x0 : Fin n → ℚ) (k : ℕ) : CGState n :=
  (cgStep A Mm)^[k] (cgInit A b x0)

/-- Modelled from the spec (sections 4.6 and 9, non-captured mode): the generic
early-exit driver; it evaluates the convergence test before every iteration and
stops as soon as the running residual is within tolerance, or when the
iteration budget is exhausted.  Returns the iteration count and final state. -/
def earlyExitLoop {σ : Type} (step : σ → σ) (resSq : σ → ℚ) (atolSq : ℚ) :
    ℕ → ℕ → σ → ℕ × σ
  | 0, k, s => (k, s)
  | fuel + 1, k, s =>
    if resSq s ≤ atolSq then (k, s)
    else earlyExitLoop step resSq atolSq fuel (k + 1) (step s)

/-- Modelled from the spec (sections 4.3 and 6): `cg(A, b, x, M, maxiter, tol)`
in non-captured (early-exit) mode; `M = none` means unpreconditioned
(`z = r`, i.e. the identity preconditioner). -/
def cg {n : ℕ} (A : Matrix (Fin n) (Fin n) ℚ) (b x0 : Fin n → ℚ)
    (M : Option (Matrix (Fin n) (Fin n) ℚ)) (maxiter : ℕ) (tolSq floorSq : ℚ) :
    SolveAnswer n :=
  let a := atolSqOf b tolSq floorSq
  let out := earlyExitLoop (cgStep A (M.getD 1)) (fun s => normSq s.r) a maxiter 0
    (cgInit A b x0)
  { x := out.2.x
    res := { niter := out.1, errSq := normSq out.2.r, atolSq := a, breakdown := false } }

/-- Modelled from the spec (sections 4.6 and 9, captured mode): the recorded
variant runs a loop of exactly `maxiter` iterations, with the convergence test
computed but never used to alter control flow. -/
def cgCaptured {n : ℕ} (A : Matrix (Fin n) (Fin n) ℚ) (b x0 : Fin n → ℚ)
    (M : Option (Matrix (Fin n) (Fin n) ℚ)) (maxiter : ℕ) (tolSq floorSq : ℚ) :
    SolveAnswer n :=
  let a := atolSqOf b tolSq floorSq
  let s := cgIter A (M.getD 1) b x0 maxiter
  { x := s.x
    res := { niter := maxiter, errSq := normSq s.r, atolSq := a, breakdown := false } }

/-- State of a BiCGSTAB solve (spec section 4.4): residual `r`, shadow residual
`rt` fixed at `r₀`, direction `p`, auxiliary `v`, and scalars `ρ_old`, `α`, `ω`. -/
structure BiState (n : ℕ) where
  x : Fin n → ℚ
  r : Fin n → ℚ
  rt : Fin n → ℚ
  p : Fin n → ℚ
  v : Fin n → ℚ
  rhoOld : ℚ
  alpha : ℚ
  omega : ℚ
deriving DecidableEq

/-- Modelled from the spec (section 4.4), the BiCGSTAB loop in non-captured
mode, with the breakdown test on `ρ_new = r̃ᵗ·r` and the mid-iteration early
exit on `‖s‖`; the preconditioner is applied on the right, as in the spec's
displayed formulas (`v = A·(M·p)`, `t = A·(M·s)`, `x += α·(M·p) + ω·(M·s)`).
Returns iteration count, final state and the breakdown flag. -/
def bicgstabLoop {n : ℕ} (A Mm : Matrix (Fin n) (Fin n) ℚ) (atolSq : ℚ) :
    ℕ → ℕ → BiState n → ℕ × BiState n × Bool
  | 0, k, s => (k, s, false)
  | fuel + 1, k, s =>
    if normSq s.r ≤ atolSq then (k, s, false)
    else
      let rhoNew := dotProduct s.rt s.r
      if rhoNew = 0 then (k, s, true)
      else
        let beta := (rhoNew / s.rhoOld) * (s.alpha / s.omega)
        let p := s.r + beta • (s.p - s.omega • s.v)
        let ph := Mm.mulVec p
        let v := A.mulVec ph
        let alpha := rhoNew / dotProduct s.rt v
        let sv := s.r - alpha • v
        if normSq sv ≤ atolSq then
          (k + 1,
            { s with x := s.x + alpha • ph, r := sv, p := p, v := v,
                     rhoOld := rhoNew, alpha := alpha },
            false)
        else
          let sh := Mm.mulVec sv
          let t := A.mulVec sh
          let omega := dotProduct t sv / dotProduct t t
          bicgstabLoop A Mm atolSq fuel (k + 1)
            { x := s.x + alpha • ph + omega • sh
              r := sv - omega • t
              rt := s.rt
              p := p
              v := v
              rhoOld := rhoNew
              alpha := alpha
              omega := omega }

/-- Initial BiCGSTAB state: `r = b - A·x`, shadow residual fixed at `r₀`,
`p = v = 0`, `ρ_old = α = ω = 1` (the standard start, under which the first
iteration reduces to `p = r`). -/
def biInit {n : ℕ} (A : Matrix (Fin n) (Fin n) ℚ) (b x0 : Fin n → ℚ) : BiState n :=
  { x := x0, r := b - A.mulVec x0, rt := b - A.mulVec x0, p := 0, v := 0,
    rhoOld := 1, alpha := 1, omega := 1 }

/-- Modelled from the spec (sections 4.4 and 6): `bicgstab(A, b, x, M, maxiter,
tol)` in non-captured mode.  A `ρ_new = 0` breakdown is reported through the
returned `ConvergenceResult`, never thrown. -/
def bicgstab {n : ℕ} (A : Matrix (Fin n) (Fin n) ℚ) (b x0 : Fin n → ℚ)
    (M : Option (Matrix (Fin n) (Fin n) ℚ)) (maxiter : ℕ) (tolSq floorSq : ℚ) :
    SolveAnswer n :=
  let a := atolSqOf b tolSq floorSq
  let out := bicgstabLoop A (M.getD 1) a maxiter 0 (biInit A b x0)
  { x := out.2.1.x
    res := { niter := out.1, errSq := normSq out.2.1.r, atolSq := a,
             breakdown := out.2.2 } }

/-- Parameter names of `cg` as the spec's section 6 lists them, capture flag
included: `cg(A, b, x, M=None, maxiter, tol, use_captured_execution)`.  This
definition follows the spec's words; it is the spec side of the interface
comparison. -/
def specCgParams : List String :=
  ["A", "b", "x", "M", "maxiter", "tol", "use_captured_execution"]

/-- Parameter names of `cg` as the source actually uses them: the test suite's
`_check_linear_solve` passes the capture flag as `use_cuda_graph=True`
(test_linear_solvers.py line 18), so that is the flag's name in the code. -/
def cgParams : List String :=
  ["A", "b", "x", "M", "maxiter", "tol", "use_cuda_graph"]

/-- Parameter names of `bicgstab`: those of `cg` plus `is_left_preconditioner`
(spec section 6; test_linear_solvers.py line 98). -/
def bicgstabParams : List String :=
  cgParams ++ ["is_left_preconditioner"]

/-- Parameter names of `gmres`: those of `cg` plus `restart_length` and
`is_left_preconditioner` (spec section 6). -/
def gmresParams : List String :=
  cgParams ++ ["restart_length", "is_left_preconditioner"]

/-- Keyword arguments that `_check_linear_solve` binds on a `cg` call
(test_linear_solvers.py lines 18 and 82-83). -/
def checkLinearSolveCgKwargs : List String :=
  ["M", "maxiter", "use_cuda_graph"]

/-- Keyword arguments bound on a `bicgstab` call (lines 18 and 96-98). -/
def checkLinearSolveBicgstabKwargs : List String :=
  ["M", "maxiter", "is_left_preconditioner", "use_cuda_graph"]

/-- Keyword arguments bound on a `gmres` call (lines 18 and 119-121). -/
def checkLinearSolveGmresKwargs : List String :=
  ["M", "maxiter", "tol", "is_left_preconditioner", "use_cuda_graph"]

/-- Python keyword binding succeeds exactly when every keyword argument names a
parameter of the callee. -/
def acceptsCall (params kwargs : List String) : Bool :=
  kwargs.all fun kw => params.contains kw

/-- A deterministic model of `np.random.default_rng`: an infinite stream of
unit-interval draws together with a cursor.  The generators below consume the
stream in document order, exactly as the NumPy calls in the source consume
their bit generator. -/
structure Rng where
  stream : ℕ → ℚ
  pos : ℕ

/-- `rng.uniform(low, high, size=(count,))`: `count` draws mapped affinely from
`[0, 1)` onto `[low, high)`. -/
def uniformVec (lo hi : ℚ) (count : ℕ) (g : Rng) : (Fin count → ℚ) × Rng :=
  (fun i => lo + (hi - lo) * g.stream (g.pos + i), ⟨g.stream, g.pos + count⟩)

/-- `rng.uniform(low, high, size=(rows, cols))`: `rows·cols` draws, row major. -/
def uniformMat (lo hi : ℚ) (rows cols : ℕ) (g : Rng) :
    Matrix (Fin rows) (Fin cols) ℚ × Rng :=
  (Matrix.of fun i j => lo + (hi - lo) * g.stream (g.pos + (i * cols + j)),
    ⟨g.stream, g.pos + rows * cols⟩)

/-- `np.random.default_rng(seed)`: the stream selected by `seed` from an
ambient entropy source, cursor at zero. -/
def defaultRng (entropy : ℕ → ℕ → ℚ) (seed : ℕ) : Rng :=
  ⟨entropy seed, 0⟩

/-- Embedding of `_least_square_system(rng, n)` (test_linear_solvers.py lines
40-47): `C = rng.uniform(-100, 100, (n, n))`; `f = rng.uniform(-100, 100, (n,))`;
returns `A = C·Cᵗ` and `b = C·f`, along with the advanced generator. -/
def leastSquareSystem (g : Rng) (n : ℕ) :
    Matrix (Fin n) (Fin n) ℚ × (Fin n → ℚ) × Rng :=
  let Cg := uniformMat (-100) 100 n n g
  let fg := uniformVec (-100) 100 n Cg.2
  (Cg.1 * Cg.1ᵀ, Cg.1.mulVec fg.1, fg.2)

/-- Embedding of `_make_nonsymmetric_system(n, seed, dtype, device, spd=False)`
(lines 58-65): draw `s = rng.uniform(0.1, 10, (n,))`, build the least-squares
system, then scale `A = A @ np.diag(s)`.  The `dtype`/`device` arguments only
control the final `wp.array` cast and are dropped; the unused `spd` flag is
kept. -/
def makeNonsymmetricSystem (entropy : ℕ → ℕ → ℚ) (n seed : ℕ) (spd : Bool) :
    Matrix (Fin n) (Fin n) ℚ × (Fin n → ℚ) :=
  let g := defaultRng entropy seed
  let sg := uniformVec (1 / 10) 10 n g
  let Abg := leastSquareSystem sg.2 n
  (Abg.1 * Matrix.diagonal sg.1, Abg.2.1)

/-- Embedding of `_make_indefinite_system(n, seed, dtype, device, spd=False)`
(lines 68-75); its body is token-for-token the same as
`_make_nonsymmetric_system`. -/
def makeIndefiniteSystem (entropy : ℕ → ℕ → ℚ) (n seed : ℕ) (spd : Bool) :
    Matrix (Fin n) (Fin n) ℚ × (Fin n → ℚ) :=
  let g := defaultRng entropy seed
  let sg := uniformVec (1 / 10) 10 n g
  let Abg := leastSquareSystem sg.2 n
  (Abg.1 * Matrix.diagonal sg.1, Abg.2.1)

section CGSequences

variable {n : ℕ} (A Mm : Matrix (Fin n) (Fin n) ℚ) (b x0 : Fin n → ℚ)

/-- Residual sequence `r_k` of the CG recurrence (no stopping). -/
def rS (k : ℕ) : Fin n → ℚ :=
  (cgIter A Mm b x0 k).r

/-- Iterate sequence `x_k` of the CG recurrence. -/
def xS (k : ℕ) : Fin n → ℚ :=
  (cgIter A Mm b x0 k).x

/-- Search-direction sequence `p_k`: the direction computed during step `k+1`. -/
def pS (k : ℕ) : Fin n → ℚ :=
  (cgIter A Mm b x0 (k + 1)).p

/-- Preconditioned residual `z_k = M·r_k`. -/
def zS (k : ℕ) : Fin n → ℚ :=
  Mm.mulVec (rS A Mm b x0 k)

/-- Scalar `ρ_k = r_kᵗ·z_k`. -/
def rhoS (k : ℕ) : ℚ :=
  dotProduct (rS A Mm b x0 k) (zS A Mm b x0 k)

/-- The operator image `q_k = A·p_k`. -/
def qS (k : ℕ) : Fin n → ℚ :=
  A.mulVec (pS A Mm b x0 k)

/-- Step length `α_k = ρ_k / (p_kᵗ·q_k)`. -/
def alS (k : ℕ) : ℚ :=
  rhoS A Mm b x0 k / dotProduct (pS A Mm b x0 k) (qS A Mm b x0 k)

end CGSequences

/-- Modelled from the spec (section 6, numeric kinds): the squared tolerance
within which two 64-bit solves are considered numerically equal.  The spec
names no value; any choice below `5/36` gives the same verdicts below. -/
def eqTolSq : ℚ := 1 / 2 ^ 40

/-- A 1×1 invertible factor with a tiny entry: `C·Cᵗ` then has its only
diagonal entry equal to `10⁻¹⁰ < ε`, so the `"diag"` preconditioner zeroes it. -/
def c1C : Matrix (Fin 1) (Fin 1) ℚ := !![1 / 100000]

/-- Inverse of `c1C`. -/
def c1D : Matrix (Fin 1) (Fin 1) ℚ := !![100000]

/-- Right-hand side for the degenerate-preconditioner run. -/
def c1b : Fin 1 → ℚ := ![1]

/-- A 1×1 system with zero right-hand side: both the zero-start and the
warm-started solve converge after zero iterations. -/
def c3A : Matrix (Fin 1) (Fin 1) ℚ := !![1]

/-- Zero right-hand side of the warm-start counterexample system. -/
def c3b : Fin 1 → ℚ := ![0]

/-- A 2×2 SPD diagonal system on which a loose tolerance makes the early-exit
solve stop after one iteration while the captured solve runs to the exact
solution. -/
def c4A : Matrix (Fin 2) (Fin 2) ℚ := !![2, 0; 0, 1]

/-- Right-hand side of the captured-vs-early-exit comparison system. -/
def c4b : Fin 2 → ℚ := ![1, 1]

/-- A 2×2 system driving BiCGSTAB into an exact `ρ_new = 0` breakdown at the
second iteration. -/
def c8A : Matrix (Fin 2) (Fin 2) ℚ := !![1, 1; 1, 0]

/-- Right-hand side of the breakdown system. -/
def c8b : Fin 2 → ℚ := ![1, 0]

/-- The scale vector `s` drawn by both generators. -/
def scaleVec (entropy : ℕ → ℕ → ℚ) (n seed : ℕ) : Fin n → ℚ :=
  (uniformVec (1 / 10) 10 n (defaultRng entropy seed)).1

/-- The factor `C` drawn by both generators (after the `s` draw). -/
def lsqFactor (entropy : ℕ → ℕ → ℚ) (n seed : ℕ) : Matrix (Fin n) (Fin n) ℚ :=
  (uniformMat (-100) 100 n n (uniformVec (1 / 10) 10 n (defaultRng entropy seed)).2).1

/-! ## Basic algebra helpers -/

theorem normSq_nonneg {n : ℕ} (v : Fin n → ℚ) : 0 ≤ normSq v := by
  unfold normSq Matrix.dotProduct
  exact Finset.sum_nonneg fun _ _ => mul_self_nonneg _

theorem normSq_pos {n : ℕ} {v : Fin n → ℚ} (hv : v ≠ 0) : 0 < normSq v := by
  obtain ⟨i, hi⟩ := Function.ne_iff.mp hv
  unfold normSq Matrix.dotProduct
  exact Finset.sum_pos' (fun _ _ => mul_self_nonneg _)
    ⟨i, Finset.mem_univ i, mul_self_pos.mpr hi⟩

theorem normSq_eq_zero {n : ℕ} {v : Fin n → ℚ} (hv : v = 0) : normSq v = 0 := by
  simp [hv, normSq]

/-- For a symmetric matrix the bilinear form `⟨u, A·v⟩` is symmetric. -/
theorem dot_mulVec_symm {n : ℕ} {A : Matrix (Fin n) (Fin n) ℚ} (hA : A.IsSymm)
    (u v : Fin n → ℚ) : dotProduct u (A.mulVec v) = dotProduct v (A.mulVec u) := by
  rw [Matrix.dotProduct_mulVec, ← Matrix.mulVec_transpose, hA.eq, dotProduct_comm]

/-- Bilinearity of the dot product over a finite linear combination. -/
theorem sum_smul_dotProduct {m n : ℕ} (g : Fin m → ℚ) (v : Fin m → Fin n → ℚ)
    (w : Fin n → ℚ) :
    dotProduct (∑ i, g i • v i) w = ∑ i, g i * dotProduct (v i) w := by
  simp only [Matrix.dotProduct, Finset.sum_apply, Pi.smul_apply, smul_eq_mul,
    Finset.sum_mul, Finset.mul_sum, mul_assoc]
  exact Finset.sum_comm

theorem posDefQ_one {n : ℕ} : PosDefQ (1 : Matrix (Fin n) (Fin n) ℚ) := by
  intro v hv
  simpa [Matrix.one_mulVec, normSq] using normSq_pos hv

theorem isSymm_one {n : ℕ} : (1 : Matrix (Fin n) (Fin n) ℚ).IsSymm :=
  Matrix.transpose_one

/-! ## The early-exit driver -/

/-- If some state within the fuel budget is already within tolerance, the
early-exit loop ends within tolerance. -/
theorem earlyExitLoop_res_le {σ : Type} (step : σ → σ) (resSq : σ → ℚ) (a : ℚ) :
    ∀ (fuel k : ℕ) (s : σ), (∃ j, j ≤ fuel ∧ resSq (step^[j] s) ≤ a) →
      resSq (earlyExitLoop step resSq a fuel k s).2 ≤ a := by
  intro fuel
  induction fuel with
  | zero =>
    intro k s h
    obtain ⟨j, hj, hle⟩ := h
    rw [Nat.le_zero.mp hj] at hle
    simpa [earlyExitLoop] using hle
  | succ fuel ih =>
    intro k s h
    obtain ⟨j, hj, hle⟩ := h
    by_cases hc : resSq s ≤ a
    · simp [earlyExitLoop, hc]
    · rw [show earlyExitLoop step resSq a (fuel + 1) k s
          = earlyExitLoop step resSq a fuel (k + 1) (step s) from by
        simp [earlyExitLoop, hc]]
      apply ih
      cases j with
      | zero => exact absurd (by simpa using hle) hc
      | succ j =>
        exact ⟨j, Nat.succ_le_succ_iff.mp hj, by
          rwa [Function.iterate_succ_apply] at hle⟩

/-- A state already within tolerance is returned unchanged, with the entry
iteration count. -/
theorem earlyExitLoop_entry {σ : Type} (step : σ → σ) (resSq : σ → ℚ) (a : ℚ)
    (fuel k : ℕ) (s : σ) (h : resSq s ≤ a) :
    earlyExitLoop step resSq a fuel k s = (k, s) := by
  cases fuel <;> simp [earlyExitLoop, h]

/-- Any property preserved by the step function holds at the loop's exit. -/
theorem earlyExitLoop_preserves {σ : Type} (step : σ → σ) (resSq : σ → ℚ) (a : ℚ)
    (P : σ → Prop) (hstep : ∀ t, P t → P (step t)) :
    ∀ (fuel k : ℕ) (s : σ), P s → P (earlyExitLoop step resSq a fuel k s).2 := by
  intro fuel
  induction fuel with
  | zero => intro k s h; exact h
  | succ fuel ih =>
    intro k s h
    by_cases hc : resSq s ≤ a
    · simpa [earlyExitLoop, hc] using h
    · simpa [earlyExitLoop, hc] using ih (k + 1) (step s) (hstep s h)

/-! ## Recurrences of the CG sequences -/

section CGRecurrences

variable {n : ℕ} (A Mm : Matrix (Fin n) (Fin n) ℚ) (b x0 : Fin n → ℚ)

theorem cgIter_succ (k : ℕ) :
    cgIter A Mm b x0 (k + 1) = cgStep A Mm (cgIter A Mm b x0 k) :=
  Function.iterate_succ_apply' _ _ _

theorem rS_zero : rS A Mm b x0 0 = b - A.mulVec x0 :=
  rfl

theorem xS_zero : xS A Mm b x0 0 = x0 :=
  rfl

theorem pS_eq_step (k : ℕ) :
    pS A Mm b x0 k = (cgStep A Mm (cgIter A Mm b x0 k)).p := by
  unfold pS
  rw [cgIter_succ]

theorem pS_def (k : ℕ) :
    pS A Mm b x0 k = zS A Mm b x0 k
      + (rhoS A Mm b x0 k / (cgIter A Mm b x0 k).rhoOld) • (cgIter A Mm b x0 k).p := by
  rw [pS_eq_step]
  rfl

theorem rhoOld_succ (k : ℕ) :
    (cgIter A Mm b x0 (k + 1)).rhoOld = rhoS A Mm b x0 k := by
  rw [cgIter_succ]
  rfl

theorem pS_zero : pS A Mm b x0 0 = zS A Mm b x0 0 := by
  rw [pS_def]
  show zS A Mm b x0 0 + _ • (0 : Fin n → ℚ) = zS A Mm b x0 0
  rw [smul_zero, add_zero]

theorem pS_succ (k : ℕ) :
    pS A Mm b x0 (k + 1) = zS A Mm b x0 (k + 1)
      + (rhoS A Mm b x0 (k + 1) / rhoS A Mm b x0 k) • pS A Mm b x0 k := by
  rw [pS_def, rhoOld_succ]
  rfl

theorem rS_succ (k : ℕ) :
    rS A Mm b x0 (k + 1) = rS A Mm b x0 k - alS A Mm b x0 k • qS A Mm b x0 k := by
  unfold rS alS qS rhoS zS rS
  rw [pS_eq_step, cgIter_succ]
  rfl

theorem xS_succ (k : ℕ) :
    xS A Mm b x0 (k + 1) = xS A Mm b x0 k + alS A Mm b x0 k • pS A Mm b x0 k := by
  unfold xS alS qS rhoS zS rS
  rw [pS_eq_step, cgIter_succ]
  rfl

theorem zS_succ_eq (k : ℕ) :
    zS A Mm b x0 (k + 1) = pS A Mm b x0 (k + 1)
      - (rhoS A Mm b x0 (k + 1) / rhoS A Mm b x0 k) • pS A Mm b x0 k := by
  rw [pS_succ, add_sub_cancel_right]

end CGRecurrences

/-! ## The CG orthogonality invariants and finite termination

Exact-arithmetic preconditioned CG on a symmetric positive-definite system with
a symmetric positive-definite preconditioner produces `M`-orthogonal residuals
and `A`-conjugate directions; hence some residual among `r_0, ..., r_n`
vanishes. -/

section CGInvariants

variable {n : ℕ} {A Mm : Matrix (Fin n) (Fin n) ℚ} {b x0 : Fin n → ℚ}

theorem cg_orth (hA : A.IsSymm) (hApd : PosDefQ A) (hM : Mm.IsSymm)
    (hMpd : PosDefQ Mm) :
    ∀ K : ℕ, (∀ i, i < K → rS A Mm b x0 i ≠ 0) →
      (∀ i j, i < j → j ≤ K → dotProduct (rS A Mm b x0 j) (zS A Mm b x0 i) = 0) ∧
      (∀ i j, i < j → j ≤ K → dotProduct (rS A Mm b x0 j) (pS A Mm b x0 i) = 0) ∧
      (∀ i, i ≤ K → dotProduct (rS A Mm b x0 i) (pS A Mm b x0 i) = rhoS A Mm b x0 i) ∧
      (∀ i j, i < j → j ≤ K → dotProduct (pS A Mm b x0 j) (qS A Mm b x0 i) = 0) := by
  intro K
  induction K with
  | zero =>
    intro _
    refine ⟨?_, ?_, ?_, ?_⟩
    · intro i j hij hj; exact absurd (hij.trans_le hj) (Nat.not_lt_zero i)
    · intro i j hij hj; exact absurd (hij.trans_le hj) (Nat.not_lt_zero i)
    · intro i hi
      rw [Nat.le_zero.mp hi, pS_zero]
      rfl
    · intro i j hij hj; exact absurd (hij.trans_le hj) (Nat.not_lt_zero i)
  | succ K ih =>
    intro hne
    obtain ⟨ih3, ih1, ih2, ih4⟩ := ih fun i hi => hne i (hi.trans (Nat.lt_succ_self K))
    have hneK : ∀ i, i ≤ K → rS A Mm b x0 i ≠ 0 :=
      fun i hi => hne i (Nat.lt_succ_of_le hi)
    have hrho : ∀ i, i ≤ K → rhoS A Mm b x0 i ≠ 0 :=
      fun i hi => ne_of_gt (hMpd _ (hneK i hi))
    have hpne : ∀ i, i ≤ K → pS A Mm b x0 i ≠ 0 := by
      intro i hi hp
      exact hrho i hi (by rw [← ih2 i hi, hp, dotProduct_zero])
    have hpq : ∀ i, i ≤ K → dotProduct (pS A Mm b x0 i) (qS A Mm b x0 i) ≠ 0 :=
      fun i hi => ne_of_gt (hApd _ (hpne i hi))
    have hal : ∀ i, i ≤ K → alS A Mm b x0 i ≠ 0 :=
      fun i hi => div_ne_zero (hrho i hi) (hpq i hi)
    have halq : ∀ i, i ≤ K →
        alS A Mm b x0 i • qS A Mm b x0 i = rS A Mm b x0 i - rS A Mm b x0 (i + 1) := by
      intro i _
      rw [rS_succ]
      exact (sub_sub_cancel _ _).symm
    have hwq : ∀ (w : Fin n → ℚ) i, i ≤ K → dotProduct w (qS A Mm b x0 i)
        = (alS A Mm b x0 i)⁻¹
          * (dotProduct w (rS A Mm b x0 i) - dotProduct w (rS A Mm b x0 (i + 1))) := by
      intro w i hi
      have h1 : dotProduct w (alS A Mm b x0 i • qS A Mm b x0 i)
          = dotProduct w (rS A Mm b x0 i) - dotProduct w (rS A Mm b x0 (i + 1)) := by
        rw [halq i hi, dotProduct_sub]
      rw [dotProduct_smul, smul_eq_mul] at h1
      rw [← h1, inv_mul_cancel_left₀ (hal i hi)]
    have hpq_comm : ∀ m j,
        dotProduct (pS A Mm b x0 m) (qS A Mm b x0 j)
          = dotProduct (pS A Mm b x0 j) (qS A Mm b x0 m) :=
      fun m j => dot_mulVec_symm hA _ _
    have hzdotq : ∀ i j, i < j → j ≤ K → dotProduct (zS A Mm b x0 i) (qS A Mm b x0 j) = 0 := by
      intro i j hij hj
      cases i with
      | zero =>
        rw [← pS_zero, hpq_comm]
        exact ih4 0 j hij hj
      | succ i =>
        rw [zS_succ_eq, sub_dotProduct, smul_dotProduct, smul_eq_mul,
          hpq_comm (i + 1) j, hpq_comm i j, ih4 (i + 1) j hij hj,
          ih4 i j ((Nat.lt_succ_self i).trans hij) hj, mul_zero, sub_zero]
    have hzqq : ∀ j, j ≤ K →
        dotProduct (zS A Mm b x0 j) (qS A Mm b x0 j)
          = dotProduct (pS A Mm b x0 j) (qS A Mm b x0 j) := by
      intro j hj
      cases j with
      | zero => rw [pS_zero]
      | succ j =>
        rw [zS_succ_eq, sub_dotProduct, smul_dotProduct, smul_eq_mul,
          hpq_comm j (j + 1), ih4 j (j + 1) (Nat.lt_succ_self j) hj, mul_zero, sub_zero]
    have g3 : ∀ i, i < K + 1 → dotProduct (rS A Mm b x0 (K + 1)) (zS A Mm b x0 i) = 0 := by
      intro i hi
      rw [rS_succ, sub_dotProduct, smul_dotProduct, smul_eq_mul]
      rcases Nat.lt_succ_iff_lt_or_eq.mp hi with hiK | hiK
      · rw [ih3 i K hiK le_rfl, dotProduct_comm (qS A Mm b x0 K),
          hzdotq i K hiK le_rfl, mul_zero, sub_zero]
      · subst hiK
        rw [dotProduct_comm (qS A Mm b x0 i), hzqq i le_rfl,
          show dotProduct (rS A Mm b x0 i) (zS A Mm b x0 i) = rhoS A Mm b x0 i from rfl,
          show alS A Mm b x0 i
              = rhoS A Mm b x0 i / dotProduct (pS A Mm b x0 i) (qS A Mm b x0 i) from rfl,
          div_mul_cancel₀ _ (hpq i le_rfl), sub_self]
    have g1 : ∀ i, i ≤ K → dotProduct (rS A Mm b x0 (K + 1)) (pS A Mm b x0 i) = 0 := by
      intro i hi
      rw [rS_succ, sub_dotProduct, smul_dotProduct, smul_eq_mul]
      rcases lt_or_eq_of_le hi with hiK | hiK
      · rw [ih1 i K hiK le_rfl, dotProduct_comm (qS A Mm b x0 K),
          hpq_comm i K, ih4 i K hiK le_rfl, mul_zero, sub_zero]
      · subst hiK
        rw [ih2 i le_rfl, dotProduct_comm (qS A Mm b x0 i),
          show alS A Mm b x0 i
              = rhoS A Mm b x0 i / dotProduct (pS A Mm b x0 i) (qS A Mm b x0 i) from rfl,
          div_mul_cancel₀ _ (hpq i le_rfl), sub_self]
    have g2 : dotProduct (rS A Mm b x0 (K + 1)) (pS A Mm b x0 (K + 1))
        = rhoS A Mm b x0 (K + 1) := by
      rw [pS_succ, dotProduct_add, dotProduct_smul, smul_eq_mul, g1 K le_rfl,
        mul_zero, add_zero]
      rfl
    have g4 : ∀ i, i ≤ K → dotProduct (pS A Mm b x0 (K + 1)) (qS A Mm b x0 i) = 0 := by
      intro i hi
      rw [pS_succ, add_dotProduct, smul_dotProduct, smul_eq_mul,
        hwq (zS A Mm b x0 (K + 1)) i hi]
      have dz : ∀ j, j < K + 1 → dotProduct (zS A Mm b x0 (K + 1)) (rS A Mm b x0 j) = 0 := by
        intro j hj
        rw [dotProduct_comm,
          show dotProduct (rS A Mm b x0 j) (zS A Mm b x0 (K + 1))
              = dotProduct (rS A Mm b x0 (K + 1)) (zS A Mm b x0 j) from
            dot_mulVec_symm hM _ _]
        exact g3 j hj
      rcases lt_or_eq_of_le hi with hiK | hiK
      · have e2 : dotProduct (pS A Mm b x0 K) (qS A Mm b x0 i) = 0 :=
          ih4 i K hiK le_rfl
        have e3 : dotProduct (pS A Mm b x0 i) (qS A Mm b x0 K) = 0 := by
          rw [hpq_comm]; exact e2
        rw [dz i (hiK.trans (Nat.lt_succ_self K)), dz (i + 1) (Nat.succ_lt_succ hiK)]
        simp [e2, e3]
      · subst hiK
        have d2 : dotProduct (zS A Mm b x0 (i + 1)) (rS A Mm b x0 (i + 1))
            = rhoS A Mm b x0 (i + 1) := by
          rw [dotProduct_comm]
          rfl
        have d3 : rhoS A Mm b x0 i * (alS A Mm b x0 i)⁻¹
            = dotProduct (pS A Mm b x0 i) (qS A Mm b x0 i) := by
          rw [show alS A Mm b x0 i
              = rhoS A Mm b x0 i / dotProduct (pS A Mm b x0 i) (qS A Mm b x0 i) from rfl,
            inv_div, mul_comm, div_mul_cancel₀ _ (hrho i le_rfl)]
        rw [dz i (Nat.lt_succ_self i), d2, ← d3, zero_sub]
        field_simp [hrho i le_rfl, hal i le_rfl]
    refine ⟨?_, ?_, ?_, ?_⟩
    · intro i j hij hj
      rcases Nat.lt_succ_iff_lt_or_eq.mp (Nat.lt_succ_of_le hj) with hj1 | hj1
      · exact ih3 i j hij (Nat.lt_succ_iff.mp hj1)
      · subst hj1; exact g3 i hij
    · intro i j hij hj
      rcases Nat.lt_succ_iff_lt_or_eq.mp (Nat.lt_succ_of_le hj) with hj1 | hj1
      · exact ih1 i j hij (Nat.lt_succ_iff.mp hj1)
      · subst hj1; exact g1 i (Nat.lt_succ_iff.mp hij)
    · intro i hi
      rcases Nat.lt_succ_iff_lt_or_eq.mp (Nat.lt_succ_of_le hi) with hi1 | hi1
      · exact ih2 i (Nat.lt_succ_iff.mp hi1)
      · subst hi1; exact g2
    · intro i j hij hj
      rcases Nat.lt_succ_iff_lt_or_eq.mp (Nat.lt_succ_of_le hj) with hj1 | hj1
      · exact ih4 i j hij (Nat.lt_succ_iff.mp hj1)
      · subst hj1; exact g4 i (Nat.lt_succ_iff.mp hij)

/-- Finite termination of exact preconditioned CG: within `n` iterations some
residual vanishes. -/
theorem cg_exists_residual_zero (hA : A.IsSymm) (hApd : PosDefQ A)
    (hM : Mm.IsSymm) (hMpd : PosDefQ Mm) :
    ∃ k, k ≤ n ∧ rS A Mm b x0 k = 0 := by
  by_contra hcon
  push_neg at hcon
  obtain ⟨h3, _, _, _⟩ := @cg_orth n A Mm b x0 hA hApd hM hMpd n
    fun i hi => hcon i (le_of_lt hi)
  have hli : LinearIndependent ℚ (fun i : Fin (n + 1) => rS A Mm b x0 i) := by
    rw [Fintype.linearIndependent_iff]
    intro g hg j
    have hdot : dotProduct (∑ i, g i • rS A Mm b x0 (i : ℕ)) (zS A Mm b x0 j) = 0 := by
      rw [hg, zero_dotProduct]
    rw [sum_smul_dotProduct, Finset.sum_eq_single j] at hdot
    · have hrhoj : (0 : ℚ) < rhoS A Mm b x0 j :=
        hMpd _ (hcon j (Nat.lt_succ_iff.mp j.isLt))
      rcases mul_eq_zero.mp hdot with h | h
      · exact h
      · exact absurd h (ne_of_gt hrhoj)
    · intro i _ hij
      have hvij : (i : ℕ) ≠ (j : ℕ) := fun h => hij (Fin.ext h)
      rcases lt_or_gt_of_ne hvij with hij1 | hij1
      · rw [show dotProduct (rS A Mm b x0 i) (zS A Mm b x0 j)
            = dotProduct (rS A Mm b x0 j) (zS A Mm b x0 i) from dot_mulVec_symm hM _ _,
          h3 (i : ℕ) (j : ℕ) hij1 (Nat.lt_succ_iff.mp j.isLt), mul_zero]
      · rw [h3 (j : ℕ) (i : ℕ) hij1 (Nat.lt_succ_iff.mp i.isLt), mul_zero]
    · intro hj
      exact absurd (Finset.mem_univ j) hj
  have hcard := hli.fintype_card_le_finrank
  rw [Module.finrank_fintype_fun_eq_card] at hcard
  simp only [Fintype.card_fin] at hcard
  omega

end CGInvariants

/-! ## Step preservation lemmas and solver-level facts for `cg` -/

section CGSolver

variable {n : ℕ} (A Mm : Matrix (Fin n) (Fin n) ℚ) (b x0 : Fin n → ℚ)

/-- A CG step preserves the identity `r = b - A·x` between the running residual
and the iterate. -/
theorem cgStep_residual (s : CGState n) (h : s.r = b - A.mulVec s.x) :
    (cgStep A Mm s).r = b - A.mulVec (cgStep A Mm s).x := by
  simp only [cgStep, Matrix.mulVec_add, Matrix.mulVec_smul, h]
  abel

/-- Once the running residual is exactly zero, further CG steps change neither
the residual nor the iterate. -/
theorem cgStep_zero_r (s : CGState n) (h : s.r = 0) :
    (cgStep A Mm s).r = 0 ∧ (cgStep A Mm s).x = s.x := by
  constructor <;> simp [cgStep, h]

/-- If the preconditioner annihilates the current residual, a CG step leaves
both the residual and the iterate untouched: the solve is stalled. -/
theorem cgStep_stall (s : CGState n) (h : Mm.mulVec s.r = 0) :
    (cgStep A Mm s).r = s.r ∧ (cgStep A Mm s).x = s.x := by
  constructor <;> simp [cgStep, h]

/-- After the residual has vanished it stays zero and the iterate freezes. -/
theorem cgIter_r_zero_after {k : ℕ} (h : rS A Mm b x0 k = 0) :
    ∀ j, rS A Mm b x0 (k + j) = 0 ∧ xS A Mm b x0 (k + j) = xS A Mm b x0 k := by
  intro j
  induction j with
  | zero => exact ⟨h, rfl⟩
  | succ j ih =>
    have hs := cgStep_zero_r A Mm (cgIter A Mm b x0 (k + j)) ih.1
    refine ⟨?_, ?_⟩
    · show (cgIter A Mm b x0 (k + j + 1)).r = 0
      rw [cgIter_succ]
      exact hs.1
    · show (cgIter A Mm b x0 (k + j + 1)).x = xS A Mm b x0 k
      rw [cgIter_succ, hs.2]
      exact ih.2

/-- The running residual equals `b - A·x` at every CG iterate. -/
theorem cgIter_residual : ∀ k, rS A Mm b x0 k = b - A.mulVec (xS A Mm b x0 k) := by
  intro k
  induction k with
  | zero => rfl
  | succ k ih =>
    show (cgIter A Mm b x0 (k + 1)).r = b - A.mulVec (cgIter A Mm b x0 (k + 1)).x
    rw [cgIter_succ]
    exact cgStep_residual A Mm b (cgIter A Mm b x0 k) ih

/-- The reported squared residual of `cg` is the squared norm of the true
residual `b - A·x` at the returned solution. -/
theorem cg_errSq_eq_true_residual (M : Option (Matrix (Fin n) (Fin n) ℚ))
    (maxiter : ℕ) (tolSq floorSq : ℚ) :
    (cg A b x0 M maxiter tolSq floorSq).res.errSq
      = normSq (b - A.mulVec (cg A b x0 M maxiter tolSq floorSq).x) := by
  have hfin := earlyExitLoop_preserves (cgStep A (M.getD 1)) (fun s => normSq s.r)
    (atolSqOf b tolSq floorSq) (fun s => s.r = b - A.mulVec s.x)
    (fun t ht => cgStep_residual A (M.getD 1) b t ht) maxiter 0 (cgInit A b x0) rfl
  show normSq (earlyExitLoop (cgStep A (M.getD 1)) (fun s => normSq s.r)
      (atolSqOf b tolSq floorSq) maxiter 0 (cgInit A b x0)).2.r = _
  rw [hfin]
  rfl

/-- The reported tolerance of `cg` is `max(tol²·‖b‖², floor²)`. -/
theorem cg_atolSq_eq (M : Option (Matrix (Fin n) (Fin n) ℚ))
    (maxiter : ℕ) (tolSq floorSq : ℚ) :
    (cg A b x0 M maxiter tolSq floorSq).res.atolSq = atolSqOf b tolSq floorSq :=
  rfl

/-- Convergence of the early-exit `cg` solve on an SPD system with an SPD (or
absent) preconditioner, once `maxiter` reaches the dimension `n`. -/
theorem cg_converges (M : Option (Matrix (Fin n) (Fin n) ℚ))
    (maxiter : ℕ) (tolSq floorSq : ℚ)
    (hA : A.IsSymm) (hApd : PosDefQ A)
    (hM : (M.getD 1).IsSymm) (hMpd : PosDefQ (M.getD 1))
    (hfl : 0 ≤ floorSq) (hmi : n ≤ maxiter) :
    (cg A b x0 M maxiter tolSq floorSq).res.errSq
      ≤ (cg A b x0 M maxiter tolSq floorSq).res.atolSq := by
  obtain ⟨k, hk, hr⟩ := @cg_exists_residual_zero n A (M.getD 1) b x0 hA hApd hM hMpd
  show normSq (earlyExitLoop (cgStep A (M.getD 1)) (fun s => normSq s.r)
      (atolSqOf b tolSq floorSq) maxiter 0 (cgInit A b x0)).2.r ≤ atolSqOf b tolSq floorSq
  refine earlyExitLoop_res_le (cgStep A (M.getD 1)) (fun s => normSq s.r)
    (atolSqOf b tolSq floorSq) maxiter 0 (cgInit A b x0) ⟨k, hk.trans hmi, ?_⟩
  show normSq ((cgStep A (M.getD 1))^[k] (cgInit A b x0)).r ≤ atolSqOf b tolSq floorSq
  rw [show ((cgStep A (M.getD 1))^[k] (cgInit A b x0)).r = rS A (M.getD 1) b x0 k from rfl,
    normSq_eq_zero hr]
  exact le_trans hfl (le_max_right _ _)

end CGSolver

/-! ## Captured-mode facts, SPD constructions, warm starts -/

section CGMore

variable {n : ℕ} (A : Matrix (Fin n) (Fin n) ℚ) (b x0 : Fin n → ℚ)

/-- In captured mode on an SPD system with enough iterations, the final running
residual is exactly zero (exact arithmetic): CG reaches the solution within `n`
steps and further steps are inert. -/
theorem cgCaptured_errSq_zero (M : Option (Matrix (Fin n) (Fin n) ℚ))
    (maxiter : ℕ) (tolSq floorSq : ℚ)
    (hA : A.IsSymm) (hApd : PosDefQ A)
    (hM : (M.getD 1).IsSymm) (hMpd : PosDefQ (M.getD 1))
    (hmi : n ≤ maxiter) :
    (cgCaptured A b x0 M maxiter tolSq floorSq).res.errSq = 0 := by
  obtain ⟨k, hk, hr⟩ := @cg_exists_residual_zero n A (M.getD 1) b x0 hA hApd hM hMpd
  have h2 := (cgIter_r_zero_after A (M.getD 1) b x0 hr (maxiter - k)).1
  show normSq (cgIter A (M.getD 1) b x0 maxiter).r = 0
  rw [show maxiter = k + (maxiter - k) from (Nat.add_sub_cancel' (hk.trans hmi)).symm]
  exact normSq_eq_zero h2

/-- The captured solve also reports the squared norm of the true residual. -/
theorem cgCaptured_errSq_eq_true_residual (M : Option (Matrix (Fin n) (Fin n) ℚ))
    (maxiter : ℕ) (tolSq floorSq : ℚ) :
    (cgCaptured A b x0 M maxiter tolSq floorSq).res.errSq
      = normSq (b - A.mulVec (cgCaptured A b x0 M maxiter tolSq floorSq).x) := by
  show normSq (rS A (M.getD 1) b x0 maxiter)
    = normSq (b - A.mulVec (xS A (M.getD 1) b x0 maxiter))
  rw [cgIter_residual]

/-- `C·Cᵗ` is symmetric. -/
theorem isSymm_mul_transpose (C : Matrix (Fin n) (Fin n) ℚ) : (C * Cᵀ).IsSymm := by
  show (C * Cᵀ)ᵀ = C * Cᵀ
  rw [Matrix.transpose_mul, Matrix.transpose_transpose]

/-- `C·Cᵗ` is positive definite whenever `C` has a right inverse. -/
theorem posDefQ_mul_transpose (C D : Matrix (Fin n) (Fin n) ℚ) (hCD : C * D = 1) :
    PosDefQ (C * Cᵀ) := by
  intro v hv
  have key : dotProduct v ((C * Cᵀ).mulVec v) = normSq (Cᵀ.mulVec v) := by
    rw [← Matrix.mulVec_mulVec, Matrix.dotProduct_mulVec, ← Matrix.mulVec_transpose]
    rfl
  rw [key]
  apply normSq_pos
  intro h0
  apply hv
  have h1 : Dᵀ * Cᵀ = 1 := by rw [← Matrix.transpose_mul, hCD, Matrix.transpose_one]
  have h2 : v = Dᵀ.mulVec (Cᵀ.mulVec v) := by
    rw [Matrix.mulVec_mulVec, h1, Matrix.one_mulVec]
  rw [h2, h0, Matrix.mulVec_zero]

/-- Each diagonal entry of a positive-definite matrix is positive. -/
theorem posDefQ_diag_entry_pos {A : Matrix (Fin n) (Fin n) ℚ} (hApd : PosDefQ A)
    (i : Fin n) : 0 < A i i := by
  have h := hApd (Pi.single i 1) fun hz => one_ne_zero (by
    have hcf := congrFun hz i
    rwa [Pi.single_eq_same] at hcf)
  simpa [Matrix.mulVec_single, Matrix.single_dotProduct] using h

/-- A diagonal matrix with positive entries is positive definite. -/
theorem posDefQ_diagonal {d : Fin n → ℚ} (hd : ∀ i, 0 < d i) :
    PosDefQ (Matrix.diagonal d) := by
  intro v hv
  have key : dotProduct v ((Matrix.diagonal d).mulVec v) = ∑ i, d i * (v i * v i) := by
    show (∑ i, v i * ((Matrix.diagonal d).mulVec v) i) = _
    refine Finset.sum_congr rfl fun i _ => ?_
    rw [Matrix.mulVec_diagonal]
    ring
  rw [key]
  obtain ⟨i, hi⟩ := Function.ne_iff.mp hv
  exact Finset.sum_pos' (fun j _ => mul_nonneg (hd j).le (mul_self_nonneg _))
    ⟨i, Finset.mem_univ i, mul_pos (hd i) (mul_self_pos.mpr hi)⟩

/-- When every diagonal entry of `A` clears the `ε` threshold, the `"diag"`
preconditioner is the exact inverse-diagonal matrix. -/
theorem diagPrecondMat_eq_of_large (A : Matrix (Fin n) (Fin n) ℚ)
    (h : ∀ i, epsDiag ≤ |A i i|) :
    diagPrecondMat A = Matrix.diagonal fun i => (A i i)⁻¹ := by
  unfold diagPrecondMat
  exact congrArg Matrix.diagonal (funext fun i => if_neg (not_lt.mpr (h i)))

/-- Warm-starting `cg` from the solution of a converged solve of the same
system with the same tolerances exits immediately: zero iterations, residual
already within tolerance. -/
theorem cg_warm_from_converged (M : Option (Matrix (Fin n) (Fin n) ℚ))
    (maxiter maxiter2 : ℕ) (tolSq floorSq : ℚ)
    (hconv : (cg A b x0 M maxiter tolSq floorSq).res.errSq
      ≤ (cg A b x0 M maxiter tolSq floorSq).res.atolSq) :
    (cg A b (cg A b x0 M maxiter tolSq floorSq).x M maxiter2 tolSq floorSq).res.niter = 0 ∧
    (cg A b (cg A b x0 M maxiter tolSq floorSq).x M maxiter2 tolSq floorSq).res.errSq
      ≤ (cg A b (cg A b x0 M maxiter tolSq floorSq).x M maxiter2 tolSq floorSq).res.atolSq := by
  have hinit : normSq (cgInit A b (cg A b x0 M maxiter tolSq floorSq).x).r
      ≤ atolSqOf b tolSq floorSq := by
    show normSq (b - A.mulVec (cg A b x0 M maxiter tolSq floorSq).x) ≤ _
    rw [← cg_errSq_eq_true_residual]
    exact hconv
  have hloop := earlyExitLoop_entry (cgStep A (M.getD 1)) (fun s => normSq s.r)
    (atolSqOf b tolSq floorSq) maxiter2 0
    (cgInit A b (cg A b x0 M maxiter tolSq floorSq).x) hinit
  constructor
  · show (earlyExitLoop (cgStep A (M.getD 1)) (fun s => normSq s.r)
      (atolSqOf b tolSq floorSq) maxiter2 0
      (cgInit A b (cg A b x0 M maxiter tolSq floorSq).x)).1 = 0
    rw [hloop]
  · show normSq (earlyExitLoop (cgStep A (M.getD 1)) (fun s => normSq s.r)
      (atolSqOf b tolSq floorSq) maxiter2 0
      (cgInit A b (cg A b x0 M maxiter tolSq floorSq).x)).2.r ≤ atolSqOf b tolSq floorSq
    rw [hloop]
    exact hinit

end CGMore

/-! ## BiCGSTAB loop facts -/

section BiLemmas

variable {n : ℕ} (A Mm : Matrix (Fin n) (Fin n) ℚ) (b : Fin n → ℚ) (a : ℚ)

/-- A BiCGSTAB run that reports breakdown stopped strictly before exhausting
its fuel, with a residual still above tolerance. -/
theorem bicgstabLoop_breakdown :
    ∀ (fuel k : ℕ) (s : BiState n) (k' : ℕ) (s' : BiState n),
      bicgstabLoop A Mm a fuel k s = (k', s', true) →
        k' < k + fuel ∧ ¬ normSq s'.r ≤ a := by
  intro fuel
  induction fuel with
  | zero =>
    intro k s k' s' hEq
    simp [bicgstabLoop] at hEq
  | succ fuel ih =>
    intro k s k' s' hEq
    simp only [bicgstabLoop] at hEq
    split at hEq
    · simp at hEq
    next h1 =>
      split at hEq
      · simp only [Prod.mk.injEq] at hEq
        obtain ⟨hk, hs, -⟩ := hEq
        subst hk
        subst hs
        exact ⟨by omega, h1⟩
      · split at hEq
        · simp at hEq
        · have hih := ih (k + 1) _ k' s' hEq
          exact ⟨by have := hih.1; omega, hih.2⟩

/-- A BiCGSTAB state already within tolerance is returned unchanged. -/
theorem bicgstabLoop_entry (fuel k : ℕ) (s : BiState n) (h : normSq s.r ≤ a) :
    bicgstabLoop A Mm a fuel k s = (k, s, false) := by
  cases fuel <;> simp [bicgstabLoop, h]

/-- The BiCGSTAB loop preserves the identity `r = b - A·x` between the running
residual and the iterate, across regular steps, the mid-iteration early exit,
and both stop paths. -/
theorem bicgstabLoop_residual :
    ∀ (fuel k : ℕ) (s : BiState n), s.r = b - A.mulVec s.x →
      (bicgstabLoop A Mm a fuel k s).2.1.r
        = b - A.mulVec (bicgstabLoop A Mm a fuel k s).2.1.x := by
  intro fuel
  induction fuel with
  | zero => intro k s h; exact h
  | succ fuel ih =>
    intro k s h
    simp only [bicgstabLoop]
    split
    · exact h
    · split
      · exact h
      · split
        · simp only [Matrix.mulVec_add, Matrix.mulVec_smul, h]
          abel
        · apply ih
          simp only [Matrix.mulVec_add, Matrix.mulVec_smul, h]
          abel

end BiLemmas

/-! ## Solver-level facts for `bicgstab` and one-step loop unfolding -/

/-- One early-exit loop step under a failed convergence test. -/
theorem earlyExitLoop_step {σ : Type} (step : σ → σ) (resSq : σ → ℚ) (a : ℚ)
    (fuel k : ℕ) (s : σ) (h : ¬ resSq s ≤ a) :
    earlyExitLoop step resSq a (fuel + 1) k s
      = earlyExitLoop step resSq a fuel (k + 1) (step s) := by
  simp [earlyExitLoop, h]

section BiSolver

variable {n : ℕ} (A : Matrix (Fin n) (Fin n) ℚ) (b x0 : Fin n → ℚ)
variable (M : Option (Matrix (Fin n) (Fin n) ℚ)) (maxiter : ℕ) (tolSq floorSq : ℚ)

/-- The reported squared residual of `bicgstab` is the squared norm of the true
residual `b - A·x` at the returned solution. -/
theorem bicgstab_errSq_eq_true_residual :
    (bicgstab A b x0 M maxiter tolSq floorSq).res.errSq
      = normSq (b - A.mulVec (bicgstab A b x0 M maxiter tolSq floorSq).x) := by
  have h := bicgstabLoop_residual A (M.getD 1) b (atolSqOf b tolSq floorSq)
    maxiter 0 (biInit A b x0) rfl
  show normSq (bicgstabLoop A (M.getD 1) (atolSqOf b tolSq floorSq)
      maxiter 0 (biInit A b x0)).2.1.r = _
  rw [h]
  rfl

/-- The reported tolerance of `bicgstab` is `max(tol²·‖b‖², floor²)`. -/
theorem bicgstab_atolSq_eq :
    (bicgstab A b x0 M maxiter tolSq floorSq).res.atolSq = atolSqOf b tolSq floorSq :=
  rfl

/-- Warm-starting `bicgstab` from the solution of a converged solve of the same
system with the same tolerances exits immediately. -/
theorem bicgstab_warm_from_converged (maxiter2 : ℕ)
    (hconv : (bicgstab A b x0 M maxiter tolSq floorSq).res.errSq
      ≤ (bicgstab A b x0 M maxiter tolSq floorSq).res.atolSq) :
    (bicgstab A b (bicgstab A b x0 M maxiter tolSq floorSq).x M maxiter2 tolSq
        floorSq).res.niter = 0 ∧
    (bicgstab A b (bicgstab A b x0 M maxiter tolSq floorSq).x M maxiter2 tolSq
        floorSq).res.errSq
      ≤ (bicgstab A b (bicgstab A b x0 M maxiter tolSq floorSq).x M maxiter2 tolSq
        floorSq).res.atolSq := by
  have hinit : normSq (biInit A b (bicgstab A b x0 M maxiter tolSq floorSq).x).r
      ≤ atolSqOf b tolSq floorSq := by
    show normSq (b - A.mulVec (bicgstab A b x0 M maxiter tolSq floorSq).x) ≤ _
    rw [← bicgstab_errSq_eq_true_residual]
    exact hconv
  have hloop := bicgstabLoop_entry A (M.getD 1) (atolSqOf b tolSq floorSq) maxiter2 0
    (biInit A b (bicgstab A b x0 M maxiter tolSq floorSq).x) hinit
  constructor
  · show (bicgstabLoop A (M.getD 1) (atolSqOf b tolSq floorSq) maxiter2 0
      (biInit A b (bicgstab A b x0 M maxiter tolSq floorSq).x)).1 = 0
    rw [hloop]
  · show normSq (bicgstabLoop A (M.getD 1) (atolSqOf b tolSq floorSq) maxiter2 0
      (biInit A b (bicgstab A b x0 M maxiter tolSq floorSq).x)).2.1.r
      ≤ atolSqOf b tolSq floorSq
    rw [hloop]
    exact hinit

end BiSolver

/-! ## Concrete computations for the counterexample systems -/

theorem c4_step1 : cgStep c4A 1 (cgInit c4A c4b 0)
    = ⟨![2/3, 2/3], ![-(1/3), 1/3], ![1, 1], 2⟩ := by
  simp only [cgStep, cgInit, c4A, c4b, CGState.mk.injEq]
  norm_num [Matrix.mulVec, Matrix.dotProduct, Fin.sum_univ_two, funext_iff,
    Fin.forall_fin_two, Matrix.vecHead, Matrix.vecTail, Function.comp,
    Pi.smul_apply, smul_eq_mul]

theorem c4_step2 : cgStep c4A 1 (⟨![2/3, 2/3], ![-(1/3), 1/3], ![1, 1], 2⟩ : CGState 2)
    = ⟨![1/2, 1], 0, ![-(2/9), 4/9], 2/9⟩ := by
  simp only [cgStep, c4A, CGState.mk.injEq]
  norm_num [Matrix.mulVec, Matrix.dotProduct, Fin.sum_univ_two, funext_iff,
    Fin.forall_fin_two, Matrix.vecHead, Matrix.vecTail, Function.comp,
    Pi.smul_apply, smul_eq_mul, Pi.zero_apply]

theorem c4_iter2 : cgIter c4A 1 c4b 0 2 = ⟨![1/2, 1], 0, ![-(2/9), 4/9], 2/9⟩ := by
  have e : cgIter c4A 1 c4b 0 2 = cgStep c4A 1 (cgStep c4A 1 (cgInit c4A c4b 0)) := by
    rw [cgIter_succ, cgIter_succ]
    rfl
  rw [e, c4_step1, c4_step2]

/-- Whatever the fuel, the non-captured solve of the `c4` system stops after
one iteration, at `x = (2/3, 2/3)`. -/
theorem c4_noncap_x (m : ℕ) : (cg c4A c4b 0 none (m + 2) (1/4) (1/100)).x = ![2/3, 2/3] := by
  show (earlyExitLoop (cgStep c4A 1) (fun s => normSq s.r) (atolSqOf c4b (1/4) (1/100))
      (m + 2) 0 (cgInit c4A c4b 0)).2.x = _
  rw [earlyExitLoop_step _ _ _ _ _ _ (by
    norm_num [normSq, cgInit, c4A, c4b, atolSqOf, Matrix.dotProduct, Matrix.mulVec,
      Fin.sum_univ_two, Matrix.vecHead, Matrix.vecTail, Function.comp, Pi.sub_apply,
      Pi.zero_apply])]
  rw [c4_step1]
  rw [earlyExitLoop_entry _ _ _ _ _ _ (by
    norm_num [normSq, atolSqOf, c4b, Matrix.dotProduct, Fin.sum_univ_two,
      Matrix.vecHead, Matrix.vecTail])]

/-- Whatever the fuel beyond two, the captured solve of the `c4` system ends at
the exact solution `x = (1/2, 1)`. -/
theorem c4_cap_x (m : ℕ) : (cgCaptured c4A c4b 0 none (m + 2) (1/4) (1/100)).x = ![1/2, 1] := by
  have hr2 : rS c4A 1 c4b 0 2 = 0 := by
    show (cgIter c4A 1 c4b 0 2).r = 0
    rw [c4_iter2]
  have key := (cgIter_r_zero_after c4A 1 c4b 0 hr2 m).2
  show (cgIter c4A 1 c4b 0 (m + 2)).x = _
  rw [show m + 2 = 2 + m from Nat.add_comm m 2]
  rw [show (cgIter c4A 1 c4b 0 (2 + m)).x = xS c4A 1 c4b 0 (2 + m) from rfl, key]
  show (cgIter c4A 1 c4b 0 2).x = _
  rw [c4_iter2]

theorem c1_inverses : c1C * c1D = 1 ∧ c1D * c1C = 1 := by
  constructor <;>
    · ext i j
      fin_cases i
      fin_cases j
      norm_num [Matrix.mul_apply, c1C, c1D, Fin.sum_univ_one, Matrix.one_apply]

/-- The only diagonal entry of `c1C·c1Cᵗ` is `10⁻¹⁰`, below `ε`, so the diag
preconditioner degenerates to the zero matrix. -/
theorem c1_precond_zero : diagPrecondMat (c1C * c1Cᵀ) = Matrix.diagonal fun _ => 0 := by
  unfold diagPrecondMat
  refine congrArg Matrix.diagonal (funext fun i => if_pos ?_)
  fin_cases i
  norm_num [Matrix.mul_apply, c1C, Fin.sum_univ_one, Matrix.transpose_apply, epsDiag,
    abs_of_pos]

theorem c1_Mzero (r : Fin 1 → ℚ) : (diagPrecondMat (c1C * c1Cᵀ)).mulVec r = 0 := by
  rw [c1_precond_zero]
  funext i
  rw [Matrix.mulVec_diagonal]
  simp

/-- The zero-right-hand-side solve on `c3A` is converged on entry. -/
theorem c3_hz : (fun s : CGState 1 => normSq s.r) (cgInit c3A c3b 0)
    ≤ atolSqOf c3b (1/100) (1/100) := by
  norm_num [normSq, cgInit, c3A, c3b, atolSqOf, Matrix.dotProduct, Matrix.mulVec,
    Fin.sum_univ_one, Pi.sub_apply, Pi.zero_apply, Matrix.cons_val_fin_one]

theorem c3_cg_conv : (cg c3A c3b 0 none 10 (1/100) (1/100)).res.errSq
    ≤ (cg c3A c3b 0 none 10 (1/100) (1/100)).res.atolSq := by
  have hloop := earlyExitLoop_entry (cgStep c3A 1) (fun s => normSq s.r)
    (atolSqOf c3b (1/100) (1/100)) 10 0 (cgInit c3A c3b 0) c3_hz
  show normSq (earlyExitLoop (cgStep c3A 1) (fun s => normSq s.r)
      (atolSqOf c3b (1/100) (1/100)) 10 0 (cgInit c3A c3b 0)).2.r
    ≤ atolSqOf c3b (1/100) (1/100)
  rw [hloop]
  exact c3_hz

theorem c3_cg_niter : (cg c3A c3b 0 none 10 (1/100) (1/100)).res.niter = 0 := by
  have hloop := earlyExitLoop_entry (cgStep c3A 1) (fun s => normSq s.r)
    (atolSqOf c3b (1/100) (1/100)) 10 0 (cgInit c3A c3b 0) c3_hz
  show (earlyExitLoop (cgStep c3A 1) (fun s => normSq s.r)
      (atolSqOf c3b (1/100) (1/100)) 10 0 (cgInit c3A c3b 0)).1 = 0
  rw [hloop]

theorem c3_cg_x : (cg c3A c3b 0 none 10 (1/100) (1/100)).x = 0 := by
  have hloop := earlyExitLoop_entry (cgStep c3A 1) (fun s => normSq s.r)
    (atolSqOf c3b (1/100) (1/100)) 10 0 (cgInit c3A c3b 0) c3_hz
  show (earlyExitLoop (cgStep c3A 1) (fun s => normSq s.r)
      (atolSqOf c3b (1/100) (1/100)) 10 0 (cgInit c3A c3b 0)).2.x = 0
  rw [hloop]
  rfl

/-- The zero-right-hand-side `bicgstab` solve on `c3A` also converges (it is
converged on entry). -/
theorem c3_bi_conv : (bicgstab c3A c3b 0 none 10 (1/100) (1/100)).res.errSq
    ≤ (bicgstab c3A c3b 0 none 10 (1/100) (1/100)).res.atolSq := by
  have hz : normSq (biInit c3A c3b 0).r ≤ atolSqOf c3b (1/100) (1/100) := by
    norm_num [normSq, biInit, c3A, c3b, atolSqOf, Matrix.dotProduct, Matrix.mulVec,
      Fin.sum_univ_one, Pi.sub_apply, Pi.zero_apply, Matrix.cons_val_fin_one]
  have hloop := bicgstabLoop_entry c3A 1 (atolSqOf c3b (1/100) (1/100)) 10 0
    (biInit c3A c3b 0) hz
  show normSq (bicgstabLoop c3A 1 (atolSqOf c3b (1/100) (1/100)) 10 0
      (biInit c3A c3b 0)).2.1.r ≤ atolSqOf c3b (1/100) (1/100)
  rw [hloop]
  exact hz

/-- On the `c8` system, BiCGSTAB hits an exact `ρ_new = 0` at its second
iteration and stops with the breakdown flag, one iteration used. -/
theorem c8_loop (m : ℕ) :
    bicgstabLoop c8A 1 (atolSqOf c8b (1/100) (1/100)) (m + 2) 0 (biInit c8A c8b 0)
      = (1, ⟨![1, 0], ![0, -1], ![1, 0], ![1, 0], ![1, 1], 1, 1, 0⟩, true) := by
  norm_num [bicgstabLoop, biInit, c8A, c8b, atolSqOf, normSq, Matrix.mulVec,
    Matrix.dotProduct, Fin.sum_univ_two, Matrix.vecHead, Matrix.vecTail, Function.comp,
    Pi.smul_apply, smul_eq_mul, Pi.sub_apply, Pi.add_apply, Pi.zero_apply,
    Matrix.one_mulVec, funext_iff, Fin.forall_fin_two, Prod.ext_iff, BiState.mk.injEq]

/-! ## The claims -/

/-- Claim C1, counterexample: the claim as stated fails on the code model.  For
the invertible 1×1 factor `c1C` (entry `10⁻⁵`), the system `A = C·Cᵗ` is SPD
but its diagonal entry `10⁻¹⁰` falls below the `"diag"` preconditioner's `ε`
threshold, so the preconditioner is the zero matrix, the preconditioned CG
iteration never moves, and no `maxiter`, however large, brings the returned
`final_residual_norm` below `tolerance_used`. -/
theorem c1_claim_counterexample :
    (c1C * c1D = 1 ∧ c1D * c1C = 1) ∧
    ¬ ∃ N : ℕ, ∀ maxiter : ℕ, N ≤ maxiter →
        (cg (c1C * c1Cᵀ) c1b 0 (some (diagPrecondMat (c1C * c1Cᵀ))) maxiter (1/4)
            (1/4)).res.errSq
          ≤ (cg (c1C * c1Cᵀ) c1b 0 (some (diagPrecondMat (c1C * c1Cᵀ))) maxiter (1/4)
            (1/4)).res.atolSq := by
  refine ⟨c1_inverses, ?_⟩
  rintro ⟨N, hN⟩
  have h : normSq (earlyExitLoop (cgStep (c1C * c1Cᵀ) (diagPrecondMat (c1C * c1Cᵀ)))
      (fun s => normSq s.r) (atolSqOf c1b (1/4) (1/4)) N 0
      (cgInit (c1C * c1Cᵀ) c1b 0)).2.r ≤ atolSqOf c1b (1/4) (1/4) := hN N le_rfl
  have hinit : (cgInit (c1C * c1Cᵀ) c1b (0 : Fin 1 → ℚ)).r = c1b := by
    show c1b - (c1C * c1Cᵀ).mulVec 0 = c1b
    rw [Matrix.mulVec_zero, sub_zero]
  have hfin := earlyExitLoop_preserves
    (cgStep (c1C * c1Cᵀ) (diagPrecondMat (c1C * c1Cᵀ))) (fun s => normSq s.r)
    (atolSqOf c1b (1/4) (1/4)) (fun s => s.r = c1b)
    (fun t ht => by
      have ht' : t.r = c1b := ht
      have hs := cgStep_stall (c1C * c1Cᵀ) (diagPrecondMat (c1C * c1Cᵀ)) t
        (by rw [ht']; exact c1_Mzero c1b)
      show (cgStep (c1C * c1Cᵀ) (diagPrecondMat (c1C * c1Cᵀ)) t).r = c1b
      rw [hs.1, ht'])
    N 0 (cgInit (c1C * c1Cᵀ) c1b 0) hinit
  rw [hfin] at h
  norm_num [normSq, c1b, atolSqOf, Matrix.dotProduct, Fin.sum_univ_one,
    Matrix.cons_val_fin_one] at h

/-- Claim C1 (amended): for every SPD system `A = C·Cᵗ` with `C` invertible and
every right-hand side, `cg` started from `x = 0` with `maxiter ≥ n` converges —
returned `final_residual_norm ≤ tolerance_used` — when run unpreconditioned,
and likewise with the `"diag"` preconditioner provided every diagonal entry of
`A` clears the `ε` threshold (the amendment forced by the counterexample). -/
theorem c1_cg_spd_converges {n : ℕ} (C D : Matrix (Fin n) (Fin n) ℚ)
    (hCD : C * D = 1) (b : Fin n → ℚ) (tolSq floorSq : ℚ) (maxiter : ℕ)
    (hfl : 0 ≤ floorSq) (hmi : n ≤ maxiter) :
    ((cg (C * Cᵀ) b 0 none maxiter tolSq floorSq).res.errSq
      ≤ (cg (C * Cᵀ) b 0 none maxiter tolSq floorSq).res.atolSq) ∧
    ((∀ i, epsDiag ≤ |(C * Cᵀ) i i|) →
      (cg (C * Cᵀ) b 0 (some (diagPrecondMat (C * Cᵀ))) maxiter tolSq
          floorSq).res.errSq
        ≤ (cg (C * Cᵀ) b 0 (some (diagPrecondMat (C * Cᵀ))) maxiter tolSq
          floorSq).res.atolSq) := by
  have hA := isSymm_mul_transpose C
  have hApd := posDefQ_mul_transpose C D hCD
  constructor
  · exact cg_converges (C * Cᵀ) b 0 none maxiter tolSq floorSq hA hApd
      isSymm_one posDefQ_one hfl hmi
  · intro hd
    have hMeq : diagPrecondMat (C * Cᵀ)
        = Matrix.diagonal fun i => ((C * Cᵀ) i i)⁻¹ :=
      diagPrecondMat_eq_of_large _ hd
    have hMsymm : ((some (diagPrecondMat (C * Cᵀ))).getD 1).IsSymm := by
      show (diagPrecondMat (C * Cᵀ)).IsSymm
      rw [hMeq]
      exact Matrix.isSymm_diagonal _
    have hMpd : PosDefQ ((some (diagPrecondMat (C * Cᵀ))).getD 1) := by
      show PosDefQ (diagPrecondMat (C * Cᵀ))
      rw [hMeq]
      exact posDefQ_diagonal fun i => inv_pos.mpr (posDefQ_diag_entry_pos hApd i)
    exact cg_converges (C * Cᵀ) b 0 (some (diagPrecondMat (C * Cᵀ))) maxiter tolSq
      floorSq hA hApd hMsymm hMpd hfl hmi

/-- The 1×1 matrix `c3A = [[1]]` squares to the identity. -/
theorem c3A_sq : c3A * c3A = 1 := by
  ext i j
  fin_cases i
  fin_cases j
  norm_num [Matrix.mul_apply, c3A, Fin.sum_univ_one, Matrix.one_apply]

/-- Claim C1, witness: the amended theorem applied to the 1×1 factor `[[1]]`. -/
theorem c1_cg_spd_converges_witness :
    c3A * c3A = 1 ∧ (0 : ℚ) ≤ 1 ∧ 1 ≤ 1 ∧
    (((cg (c3A * c3Aᵀ) ![1] 0 none 1 0 1).res.errSq
        ≤ (cg (c3A * c3Aᵀ) ![1] 0 none 1 0 1).res.atolSq) ∧
      ((∀ i, epsDiag ≤ |(c3A * c3Aᵀ) i i|) →
        (cg (c3A * c3Aᵀ) ![1] 0 (some (diagPrecondMat (c3A * c3Aᵀ))) 1 0 1).res.errSq
          ≤ (cg (c3A * c3Aᵀ) ![1] 0 (some (diagPrecondMat (c3A * c3Aᵀ))) 1 0
            1).res.atolSq)) :=
  ⟨c3A_sq, by norm_num, le_rfl,
    c1_cg_spd_converges c3A c3A c3A_sq ![1] 0 1 1 (by norm_num) le_rfl⟩

/-- Claim C3, counterexample: for the 1×1 system with `b = 0`, the zero-start
solve converges after 0 iterations; warm-starting from its returned solution
also uses 0 iterations, which is not strictly fewer. -/
theorem c3_claim_counterexample :
    ((cg c3A c3b 0 none 10 (1/100) (1/100)).res.errSq
      ≤ (cg c3A c3b 0 none 10 (1/100) (1/100)).res.atolSq) ∧
    ¬ ((cg c3A c3b (cg c3A c3b 0 none 10 (1/100) (1/100)).x none 10 (1/100)
          (1/100)).res.niter
        < (cg c3A c3b 0 none 10 (1/100) (1/100)).res.niter) := by
  refine ⟨c3_cg_conv, ?_⟩
  rw [c3_cg_x, c3_cg_niter]
  exact lt_irrefl 0

/-- Claim C3 (amended): a solve warm-started from the solution of an earlier
converged solve of the same system with the same tolerances converges and uses
at most as many iterations as the earlier solve — fewer-or-equal, not strictly
fewer.  This holds per solve, for each modelled solver on its own: the `cg`
conclusion assumes only the earlier `cg` solve converged, and the `bicgstab`
conclusion assumes only the earlier `bicgstab` solve converged. -/
theorem c3_warm_start_le {n : ℕ} (A : Matrix (Fin n) (Fin n) ℚ) (b x0 : Fin n → ℚ)
    (M : Option (Matrix (Fin n) (Fin n) ℚ)) (maxiter maxiter2 : ℕ)
    (tolSq floorSq : ℚ) :
    ((cg A b x0 M maxiter tolSq floorSq).res.errSq
        ≤ (cg A b x0 M maxiter tolSq floorSq).res.atolSq →
      (cg A b (cg A b x0 M maxiter tolSq floorSq).x M maxiter2 tolSq
          floorSq).res.errSq
        ≤ (cg A b (cg A b x0 M maxiter tolSq floorSq).x M maxiter2 tolSq
          floorSq).res.atolSq ∧
      (cg A b (cg A b x0 M maxiter tolSq floorSq).x M maxiter2 tolSq
          floorSq).res.niter
        ≤ (cg A b x0 M maxiter tolSq floorSq).res.niter) ∧
    ((bicgstab A b x0 M maxiter tolSq floorSq).res.errSq
        ≤ (bicgstab A b x0 M maxiter tolSq floorSq).res.atolSq →
      (bicgstab A b (bicgstab A b x0 M maxiter tolSq floorSq).x M maxiter2 tolSq
          floorSq).res.errSq
        ≤ (bicgstab A b (bicgstab A b x0 M maxiter tolSq floorSq).x M maxiter2
          tolSq floorSq).res.atolSq ∧
      (bicgstab A b (bicgstab A b x0 M maxiter tolSq floorSq).x M maxiter2 tolSq
          floorSq).res.niter
        ≤ (bicgstab A b x0 M maxiter tolSq floorSq).res.niter) := by
  constructor
  · intro hcg
    obtain ⟨h1, h2⟩ := cg_warm_from_converged A b x0 M maxiter maxiter2 tolSq
      floorSq hcg
    exact ⟨h2, by rw [h1]; exact Nat.zero_le _⟩
  · intro hbi
    obtain ⟨h3, h4⟩ := bicgstab_warm_from_converged A b x0 M maxiter tolSq floorSq
      maxiter2 hbi
    exact ⟨h4, by rw [h3]; exact Nat.zero_le _⟩

/-- Claim C3, witness: the amended theorem applied to the 1×1 system `c3A`,
each solver's implication discharged by that solver's own converged solve. -/
theorem c3_warm_start_le_witness :
    ((cg c3A c3b 0 none 10 (1/100) (1/100)).res.errSq
      ≤ (cg c3A c3b 0 none 10 (1/100) (1/100)).res.atolSq) ∧
    ((bicgstab c3A c3b 0 none 10 (1/100) (1/100)).res.errSq
      ≤ (bicgstab c3A c3b 0 none 10 (1/100) (1/100)).res.atolSq) ∧
    (((cg c3A c3b (cg c3A c3b 0 none 10 (1/100) (1/100)).x none 7 (1/100)
        (1/100)).res.errSq
      ≤ (cg c3A c3b (cg c3A c3b 0 none 10 (1/100) (1/100)).x none 7 (1/100)
        (1/100)).res.atolSq ∧
     (cg c3A c3b (cg c3A c3b 0 none 10 (1/100) (1/100)).x none 7 (1/100)
        (1/100)).res.niter
      ≤ (cg c3A c3b 0 none 10 (1/100) (1/100)).res.niter) ∧
    ((bicgstab c3A c3b (bicgstab c3A c3b 0 none 10 (1/100) (1/100)).x none 7 (1/100)
        (1/100)).res.errSq
      ≤ (bicgstab c3A c3b (bicgstab c3A c3b 0 none 10 (1/100) (1/100)).x none 7
        (1/100) (1/100)).res.atolSq ∧
     (bicgstab c3A c3b (bicgstab c3A c3b 0 none 10 (1/100) (1/100)).x none 7 (1/100)
        (1/100)).res.niter
      ≤ (bicgstab c3A c3b 0 none 10 (1/100) (1/100)).res.niter)) :=
  ⟨c3_cg_conv, c3_bi_conv,
    (c3_warm_start_le c3A c3b 0 none 10 7 (1/100) (1/100)).1 c3_cg_conv,
    (c3_warm_start_le c3A c3b 0 none 10 7 (1/100) (1/100)).2 c3_bi_conv⟩

/-- Claim C4, counterexample: on the SPD system `c4A`, `c4b` with tolerance
`tol² = 1/4`, the early-exit solve stops at `x = (2/3, 2/3)` while the captured
solve reaches `x = (1/2, 1)` for every sufficiently large `maxiter`; the two
differ by `‖Δx‖² = 5/36`, far beyond the 64-bit numeric-kind tolerance. -/
theorem c4_claim_counterexample :
    ¬ ∃ N : ℕ, ∀ maxiter : ℕ, N ≤ maxiter →
        normSq ((cgCaptured c4A c4b 0 none maxiter (1/4) (1/100)).x
            - (cg c4A c4b 0 none maxiter (1/4) (1/100)).x)
          ≤ eqTolSq := by
  rintro ⟨N, hN⟩
  have h := hN (N + 2) (Nat.le_add_right N 2)
  rw [c4_cap_x N, c4_noncap_x N] at h
  norm_num [normSq, eqTolSq, Matrix.dotProduct, Fin.sum_univ_two, Pi.sub_apply,
    Matrix.vecHead, Matrix.vecTail, Function.comp] at h

/-- Claim C4 (amended): on an SPD system with an SPD (or absent) preconditioner
and `maxiter ≥ n`, the captured-execution solve and the non-captured solve both
converge — the recomputed true residual of each returned solution is within the
tolerance — though the two solution vectors themselves may differ (the
non-captured mode exits early, as the counterexample shows). -/
theorem c4_both_modes_converge {n : ℕ} (A : Matrix (Fin n) (Fin n) ℚ)
    (b x0 : Fin n → ℚ) (M : Option (Matrix (Fin n) (Fin n) ℚ)) (maxiter : ℕ)
    (tolSq floorSq : ℚ) (hA : A.IsSymm) (hApd : PosDefQ A)
    (hM : (M.getD 1).IsSymm) (hMpd : PosDefQ (M.getD 1))
    (hfl : 0 ≤ floorSq) (hmi : n ≤ maxiter) :
    normSq (b - A.mulVec (cgCaptured A b x0 M maxiter tolSq floorSq).x)
      ≤ (cgCaptured A b x0 M maxiter tolSq floorSq).res.atolSq ∧
    normSq (b - A.mulVec (cg A b x0 M maxiter tolSq floorSq).x)
      ≤ (cg A b x0 M maxiter tolSq floorSq).res.atolSq := by
  constructor
  · rw [← cgCaptured_errSq_eq_true_residual,
      cgCaptured_errSq_zero A b x0 M maxiter tolSq floorSq hA hApd hM hMpd hmi]
    show (0 : ℚ) ≤ atolSqOf b tolSq floorSq
    exact le_trans hfl (le_max_right _ _)
  · rw [← cg_errSq_eq_true_residual]
    exact cg_converges A b x0 M maxiter tolSq floorSq hA hApd hM hMpd hfl hmi

/-- Claim C4, witness: the amended theorem applied to the 1×1 identity system. -/
theorem c4_both_modes_converge_witness :
    (1 : Matrix (Fin 1) (Fin 1) ℚ).IsSymm ∧ PosDefQ (1 : Matrix (Fin 1) (Fin 1) ℚ) ∧
    (0 : ℚ) ≤ 1 ∧ 1 ≤ 1 ∧
    (normSq (![1] - (1 : Matrix (Fin 1) (Fin 1) ℚ).mulVec
        (cgCaptured (1 : Matrix (Fin 1) (Fin 1) ℚ) ![1] 0 none 1 0 1).x)
      ≤ (cgCaptured (1 : Matrix (Fin 1) (Fin 1) ℚ) ![1] 0 none 1 0 1).res.atolSq ∧
    normSq (![1] - (1 : Matrix (Fin 1) (Fin 1) ℚ).mulVec
        (cg (1 : Matrix (Fin 1) (Fin 1) ℚ) ![1] 0 none 1 0 1).x)
      ≤ (cg (1 : Matrix (Fin 1) (Fin 1) ℚ) ![1] 0 none 1 0 1).res.atolSq) :=
  ⟨isSymm_one, posDefQ_one, by norm_num, le_rfl,
    c4_both_modes_converge 1 ![1] 0 none 1 0 1 isSymm_one posDefQ_one isSymm_one
      posDefQ_one (by norm_num) le_rfl⟩

/-- Claim C6: for every system matrix, the `"diag"` preconditioner never
divides by a (near-)zero diagonal entry: each diagonal entry below `ε` in
absolute value is mapped to `0`, and every other entry is mapped to its exact
reciprocal (its product with the original entry is `1`). -/
theorem c6_diag_precond_safe {n : ℕ} (A : Matrix (Fin n) (Fin n) ℚ) :
    preconditioner A "diag" = Except.ok (diagPrecondMat A) ∧
    ∀ i, (|A i i| < epsDiag ∧ diagPrecondMat A i i = 0) ∨
      (epsDiag ≤ |A i i| ∧ diagPrecondMat A i i * A i i = 1) := by
  constructor
  · simp [preconditioner]
  · intro i
    have hii : diagPrecondMat A i i
        = if |A i i| < epsDiag then 0 else (A i i)⁻¹ :=
      Matrix.diagonal_apply_eq _ i
    by_cases h : |A i i| < epsDiag
    · exact Or.inl ⟨h, by rw [hii, if_pos h]⟩
    · refine Or.inr ⟨not_lt.mp h, ?_⟩
      rw [hii, if_neg h]
      refine inv_mul_cancel₀ fun h0 => ?_
      rw [h0] at h
      exact h (by norm_num [epsDiag])

/-- Claim C7: for every kind string other than `"diag"` and `"identity"`, the
preconditioner builder fails with `UnsupportedPreconditionerError`; the error
arises at build time, in `preconditioner` itself, before any solver runs. -/
theorem c7_unsupported_kind {n : ℕ} (A : Matrix (Fin n) (Fin n) ℚ) (kind : String)
    (h1 : kind ≠ "diag") (h2 : kind ≠ "identity") :
    preconditioner A kind
      = Except.error PrecondError.unsupportedPreconditionerError := by
  simp [preconditioner, h1, h2]

/-- Claim C7, witness: the unrecognized kind `"ilu"` on a 1×1 system. -/
theorem c7_unsupported_kind_witness :
    "ilu" ≠ "diag" ∧ "ilu" ≠ "identity" ∧
    preconditioner (1 : Matrix (Fin 1) (Fin 1) ℚ) "ilu"
      = Except.error PrecondError.unsupportedPreconditionerError :=
  ⟨by decide, by decide, c7_unsupported_kind 1 "ilu" (by decide) (by decide)⟩

/-- Claim C8: whenever a `bicgstab` solve reports the `ρ_new = 0` breakdown —
the model is a total function, so no exception is ever raised — the returned
`ConvergenceResult` carries the breakdown flag, `iterations_used` strictly
below `maxiter`, and a final residual still above tolerance (not converged). -/
theorem c8_breakdown_reported {n : ℕ} (A : Matrix (Fin n) (Fin n) ℚ)
    (b x0 : Fin n → ℚ) (M : Option (Matrix (Fin n) (Fin n) ℚ)) (maxiter : ℕ)
    (tolSq floorSq : ℚ)
    (h : (bicgstab A b x0 M maxiter tolSq floorSq).res.breakdown = true) :
    (bicgstab A b x0 M maxiter tolSq floorSq).res.niter < maxiter ∧
    ¬ (bicgstab A b x0 M maxiter tolSq floorSq).res.errSq
        ≤ (bicgstab A b x0 M maxiter tolSq floorSq).res.atolSq := by
  rcases hout : bicgstabLoop A (M.getD 1) (atolSqOf b tolSq floorSq) maxiter 0
      (biInit A b x0) with ⟨k1, s1, br⟩
  have hbr : br = true := by
    have hh : (bicgstabLoop A (M.getD 1) (atolSqOf b tolSq floorSq) maxiter 0
        (biInit A b x0)).2.2 = true := h
    rw [hout] at hh
    exact hh
  subst hbr
  have hb := bicgstabLoop_breakdown A (M.getD 1) (atolSqOf b tolSq floorSq) maxiter 0
    (biInit A b x0) k1 s1 hout
  constructor
  · show (bicgstabLoop A (M.getD 1) (atolSqOf b tolSq floorSq) maxiter 0
      (biInit A b x0)).1 < maxiter
    rw [hout]
    have := hb.1
    omega
  · show ¬ normSq (bicgstabLoop A (M.getD 1) (atolSqOf b tolSq floorSq) maxiter 0
      (biInit A b x0)).2.1.r ≤ atolSqOf b tolSq floorSq
    rw [hout]
    exact hb.2

/-- Claim C8, witness: on the system `c8A`, `c8b` the shadow residual becomes
orthogonal to the running residual after one iteration, so `ρ_new = 0` is hit
exactly; the reported result has the breakdown flag, one iteration used out of
two, and an unconverged residual. -/
theorem c8_breakdown_reported_witness :
    (bicgstab c8A c8b 0 none 2 (1/100) (1/100)).res.breakdown = true ∧
    ((bicgstab c8A c8b 0 none 2 (1/100) (1/100)).res.niter < 2 ∧
     ¬ (bicgstab c8A c8b 0 none 2 (1/100) (1/100)).res.errSq
         ≤ (bicgstab c8A c8b 0 none 2 (1/100) (1/100)).res.atolSq) := by
  have hflag : (bicgstab c8A c8b 0 none 2 (1/100) (1/100)).res.breakdown = true :=
    congrArg (fun t : ℕ × BiState 2 × Bool => t.2.2) (c8_loop 0)
  exact ⟨hflag, c8_breakdown_reported c8A c8b 0 none 2 (1/100) (1/100) hflag⟩

/-- Claim C9, counterexample: the capture flag is not named
`use_captured_execution` in the code; the test suite's own call
`func(A, b, x, *args, use_cuda_graph=True, **kwargs)` binds the keyword
`use_cuda_graph`, which the spec's claimed parameter list does not contain, so
the claimed interface would reject the repository's calls. -/
theorem c9_claim_counterexample :
    "use_cuda_graph" ∉ specCgParams ∧
    "use_cuda_graph" ∈ checkLinearSolveCgKwargs ∧
    acceptsCall specCgParams checkLinearSolveCgKwargs = false := by
  refine ⟨by decide, by decide, by decide⟩

/-- Claim C9 (amended): each solver accepts exactly the parameters the
interface lists with the capture flag named `use_cuda_graph` (the test calls
bind successfully), and every call returns a `ConvergenceResult` triple in the
order (iterations_used, final_residual_norm, tolerance_used): the second
component is the (squared) norm of the true residual at the returned solution
and the third is the (squared) termination threshold `max(tol·‖b‖, floor)`. -/
theorem c9_interface_amended :
    (acceptsCall cgParams checkLinearSolveCgKwargs = true ∧
     acceptsCall bicgstabParams checkLinearSolveBicgstabKwargs = true ∧
     acceptsCall gmresParams checkLinearSolveGmresKwargs = true) ∧
    ∀ (n : ℕ) (A : Matrix (Fin n) (Fin n) ℚ) (b x0 : Fin n → ℚ)
      (M : Option (Matrix (Fin n) (Fin n) ℚ)) (maxiter : ℕ) (tolSq floorSq : ℚ),
      (cg A b x0 M maxiter tolSq floorSq).res.toTriple
        = ((cg A b x0 M maxiter tolSq floorSq).res.niter,
           normSq (b - A.mulVec (cg A b x0 M maxiter tolSq floorSq).x),
           atolSqOf b tolSq floorSq) ∧
      (bicgstab A b x0 M maxiter tolSq floorSq).res.toTriple
        = ((bicgstab A b x0 M maxiter tolSq floorSq).res.niter,
           normSq (b - A.mulVec (bicgstab A b x0 M maxiter tolSq floorSq).x),
           atolSqOf b tolSq floorSq) := by
  refine ⟨⟨by decide, by decide, by decide⟩, ?_⟩
  intro n A b x0 M maxiter tolSq floorSq
  constructor
  · show ((cg A b x0 M maxiter tolSq floorSq).res.niter,
      (cg A b x0 M maxiter tolSq floorSq).res.errSq,
      (cg A b x0 M maxiter tolSq floorSq).res.atolSq) = _
    rw [cg_errSq_eq_true_residual, cg_atolSq_eq]
  · show ((bicgstab A b x0 M maxiter tolSq floorSq).res.niter,
      (bicgstab A b x0 M maxiter tolSq floorSq).res.errSq,
      (bicgstab A b x0 M maxiter tolSq floorSq).res.atolSq) = _
    rw [bicgstab_errSq_eq_true_residual, bicgstab_atolSq_eq]

/-- Claim C10: for every dimension, seed and entropy source,
`_make_nonsymmetric_system` and `_make_indefinite_system` compute identical
outputs; the common matrix is `(C·Cᵗ)·diag(s)`, and when the underlying draws
lie in `[0, 1)` the scale vector `s` lies in `[0.1, 10)` and is strictly
positive. -/
theorem c10_generators_coincide (entropy : ℕ → ℕ → ℚ)
    (hent : ∀ s k, 0 ≤ entropy s k ∧ entropy s k < 1) :
    ∀ (n seed : ℕ) (spd spd2 : Bool),
      makeNonsymmetricSystem entropy n seed spd
        = makeIndefiniteSystem entropy n seed spd2 ∧
      (makeNonsymmetricSystem entropy n seed spd).1
        = lsqFactor entropy n seed * (lsqFactor entropy n seed)ᵀ
          * Matrix.diagonal (scaleVec entropy n seed) ∧
      ∀ i : Fin n, 0 < scaleVec entropy n seed i ∧
        1/10 ≤ scaleVec entropy n seed i ∧ scaleVec entropy n seed i < 10 := by
  intro n seed spd spd2
  refine ⟨rfl, rfl, ?_⟩
  intro i
  have hval : scaleVec entropy n seed i
      = 1/10 + (10 - 1/10) * entropy seed (0 + (i : ℕ)) := rfl
  obtain ⟨hu0, hu1⟩ := hent seed (0 + (i : ℕ))
  rw [hval]
  refine ⟨by nlinarith, by nlinarith, by nlinarith⟩

/-- Claim C10, witness: the generator equivalence at the constant entropy
source `1/2`, dimension 1, seed 0, opposite `spd` flags. -/
theorem c10_generators_coincide_witness :
    (∀ s k : ℕ, 0 ≤ (1 : ℚ)/2 ∧ (1 : ℚ)/2 < 1) ∧
    (makeNonsymmetricSystem (fun _ _ => (1 : ℚ)/2) 1 0 false
        = makeIndefiniteSystem (fun _ _ => (1 : ℚ)/2) 1 0 true ∧
      (makeNonsymmetricSystem (fun _ _ => (1 : ℚ)/2) 1 0 false).1
        = lsqFactor (fun _ _ => (1 : ℚ)/2) 1 0
          * (lsqFactor (fun _ _ => (1 : ℚ)/2) 1 0)ᵀ
          * Matrix.diagonal (scaleVec (fun _ _ => (1 : ℚ)/2) 1 0) ∧
      ∀ i : Fin 1, 0 < scaleVec (fun _ _ => (1 : ℚ)/2) 1 0 i ∧
        1/10 ≤ scaleVec (fun _ _ => (1 : ℚ)/2) 1 0 i ∧
        scaleVec (fun _ _ => (1 : ℚ)/2) 1 0 i < 10) :=
  ⟨fun _ _ => ⟨by norm_num, by norm_num⟩,
    c10_generators_coincide (fun _ _ => (1 : ℚ)/2)
      (fun _ _ => ⟨by norm_num, by norm_num⟩) 1 0 false true⟩

end Warp
